import Mathlib

/-!
Verification development for the bashistdb history store and query engine.

The definitions in this file are shallow embeddings of the Go source:

* `matchParseLine` / `matchExportLine` model the two ingestion regular
  expressions of database/database.go (`parseLine`, `parseExportLine`),
  including the leftmost-greedy backtracking behaviour of Go's regexp
  engine on these concrete patterns.
* `parseTs` models Go's `time.Parse` on the fixed layout
  `2006-01-02T15:04:05-0700` (`RFC3339alt`); parsed times are represented
  as seconds since the Unix epoch (offsets normalised away).
* `addLines` / `addFromBufferRun` model `Database.AddFromBuffer`
  (database/database.go), including the transaction semantics (commit on
  success, rollback / no commit on error) and the line-format state
  variable that persists across loop iterations.
* `filteredRows`, `groupReps`, `defaultQueryRows`, `lastKRows` model the
  SQL run by `DefaultQuery` and `LastK` (database/queries.go) against the
  `history` table, including SQLite `LIKE` matching and the bare-column
  `GROUP BY` representative (the last row of the group in scan order, the
  behaviour the repository's own test suite pins down).
* `Result.new` / `addRow` / `formatted` model the result renderer
  (result package).
* `migrateRun` / `openStore` model `migrate` and `New`
  (database/database.go).
* `window` / `mergeWindows` are modelled from the spec (the content-window
  query is not present in the source tree).
-/

namespace Bashistdb

/-! ## Character classes of the ingestion regular expressions -/

def isDigitC (c : Char) : Bool := '0' ≤ c && c ≤ '9'

def isAlphaC (c : Char) : Bool := ('a' ≤ c && c ≤ 'z') || ('A' ≤ c && c ≤ 'Z')

def isAlnumC (c : Char) : Bool := isAlphaC c || isDigitC c

/-- The class `[0-9T:+-]` used for the 24-character timestamp group. -/
def isTsChar (c : Char) : Bool := isDigitC c || c == 'T' || c == ':' || c == '+' || c == '-'

/-- First character of the user group of `parseExportLine`: `[a-zA-Z_]`. -/
def isUserStartChar (c : Char) : Bool := isAlphaC c || c == '_'

/-- Tail characters of the user group: `[a-zA-Z0-9_-]`. -/
def isUserChar (c : Char) : Bool := isAlnumC c || c == '_' || c == '-'

/-- Tail characters of the host group: `[a-zA-Z0-9_.]`. -/
def isHostChar (c : Char) : Bool := isAlnumC c || c == '_' || c == '.'

/-! ## Model of `parseLine`: `^ *[0-9]+\*? *([0-9T:+-]{24,24}) *(.*)`

Lines are modelled with their trailing newline already stripped (the
newline can only ever be consumed by `(.*)`, which in Go regexp does not
match `\n`, so the two presentations are equivalent; the subsequent
`strings.TrimSuffix(args[i], "\n")` in the Go code is a no-op). -/

/-- Attempt the part of shape 1 after the digit run: optional `*`, spaces,
the 24-character timestamp group, spaces, and the rest-of-line group.
The optional `*` and each space run are forced (their character classes
are disjoint from what must follow), so no backtracking happens here. -/
def tryShape1Tail (s : List Char) : Option (List Char × List Char) :=
  let s1 := match s with
    | '*' :: rest => rest
    | _ => s
  let s2 := s1.dropWhile (· == ' ')
  let ts := s2.take 24
  if ts.length == 24 && ts.all isTsChar then
    some (ts, (s2.drop 24).dropWhile (· == ' '))
  else
    none

/-- Greedy backtracking over the length of the `[0-9]+` run: try the
longest digit run first, then shorter ones, as Go's leftmost-greedy
matching does. `k + 1` is the number of digits consumed. -/
def tryShape1Digits : Nat → List Char → Option (List Char × List Char)
  | 0, _ => none
  | k + 1, s =>
    match tryShape1Tail (s.drop (k + 1)) with
    | some r => some r
    | none => tryShape1Digits k s

/-- Model of `parseLine.FindStringSubmatch`: on success returns the two
capture groups (timestamp text, command text). -/
def matchParseLine (line : List Char) : Option (List Char × List Char) :=
  let s := line.dropWhile (· == ' ')
  tryShape1Digits (s.takeWhile isDigitC).length s

/-! ## Model of `parseExportLine`:
`^([a-zA-Z_][a-zA-Z0-9_-]*) ([a-zA-Z0-9][a-zA-Z0-9_.]*) *([0-9T:+-]{24,24}) *(.*)` -/

/-- The part after the host group: spaces, the timestamp group, spaces,
rest of line. -/
def tryShape2Tail (s : List Char) : Option (List Char × List Char) :=
  let s2 := s.dropWhile (· == ' ')
  let ts := s2.take 24
  if ts.length == 24 && ts.all isTsChar then
    some (ts, (s2.drop 24).dropWhile (· == ' '))
  else
    none

/-- Greedy backtracking over the length of the host-tail run
`[a-zA-Z0-9_.]*` (needed because that class overlaps the timestamp
class). `h0` is the first host character, `s3` the characters after it;
the argument is the number of host-tail characters to keep. -/
def tryShape2HostSplit (h0 : Char) (s3 : List Char) : Nat → Option (List Char × List Char × List Char)
  | 0 =>
    match tryShape2Tail s3 with
    | some (ts, rest) => some ([h0], ts, rest)
    | none => none
  | k + 1 =>
    match tryShape2Tail (s3.drop (k + 1)) with
    | some (ts, rest) => some (h0 :: s3.take (k + 1), ts, rest)
    | none => tryShape2HostSplit h0 s3 k

/-- Model of `parseExportLine.FindStringSubmatch`: on success returns the
four capture groups (user, host, timestamp text, command text).
The user group and its following literal space are deterministic: the
user character class excludes the space, so the greedy run is forced. -/
def matchExportLine (line : List Char) : Option (List Char × List Char × List Char × List Char) :=
  match line with
  | [] => none
  | c :: rest =>
    if isUserStartChar c then
      match rest.dropWhile isUserChar with
      | ' ' :: s2 =>
        match s2 with
        | [] => none
        | h0 :: s3 =>
          if isAlnumC h0 then
            match tryShape2HostSplit h0 s3 (s3.takeWhile isHostChar).length with
            | some (host, ts, rest') => some (c :: rest.takeWhile isUserChar, host, ts, rest')
            | none => none
          else none
      | _ => none
    else none

/-! ## Model of `time.Parse` on layout `2006-01-02T15:04:05-0700` -/

def digitVal (c : Char) : Nat := c.toNat - '0'.toNat

def isLeapYear (y : Nat) : Bool := y % 4 == 0 && (y % 100 != 0 || y % 400 == 0)

def daysInMonth (y m : Nat) : Nat :=
  if m == 1 || m == 3 || m == 5 || m == 7 || m == 8 || m == 10 || m == 12 then 31
  else if m == 4 || m == 6 || m == 9 || m == 11 then 30
  else if isLeapYear y then 29
  else 28

/-- Days since 1970-01-01 of a civil date (proleptic Gregorian). -/
def daysFromCivil (y m d : Nat) : Int :=
  let yi : Int := if m ≤ 2 then (y : Int) - 1 else (y : Int)
  let mp : Int := ((m : Int) + 9) % 12
  365 * yi + Int.fdiv yi 4 - Int.fdiv yi 100 + Int.fdiv yi 400
    + Int.fdiv (153 * mp + 2) 5 + (d : Int) - 1 - 719468

/-- Model of `time.Parse(RFC3339alt, ts)`, returning the instant as Unix
seconds (the zone offset is applied, mirroring the normalisation the
storage layer performs). Field ranges are checked as Go does: month 1-12,
day within the month, hour below 24, minute and second below 60. -/
def parseTs (ts : List Char) : Option Int :=
  if ts.length == 24 then
    let c := fun i => ts.getD i ' '
    if ([0, 1, 2, 3, 5, 6, 8, 9, 11, 12, 14, 15, 17, 18, 20, 21, 22, 23].all fun i => isDigitC (c i)) &&
        c 4 == '-' && c 7 == '-' && c 10 == 'T' && c 13 == ':' && c 16 == ':' &&
        (c 19 == '+' || c 19 == '-') then
      let y := 1000 * digitVal (c 0) + 100 * digitVal (c 1) + 10 * digitVal (c 2) + digitVal (c 3)
      let mo := 10 * digitVal (c 5) + digitVal (c 6)
      let da := 10 * digitVal (c 8) + digitVal (c 9)
      let ho := 10 * digitVal (c 11) + digitVal (c 12)
      let mi := 10 * digitVal (c 14) + digitVal (c 15)
      let se := 10 * digitVal (c 17) + digitVal (c 18)
      let oh := 10 * digitVal (c 20) + digitVal (c 21)
      let om := 10 * digitVal (c 22) + digitVal (c 23)
      if 1 ≤ mo ∧ mo ≤ 12 ∧ 1 ≤ da ∧ da ≤ daysInMonth y mo ∧ ho ≤ 23 ∧ mi ≤ 59 ∧ se ≤ 59 then
        let off : Int := (if c 19 == '-' then -1 else 1) * (3600 * (oh : Int) + 60 * (om : Int))
        some (daysFromCivil y mo da * 86400 + 3600 * (ho : Int) + 60 * (mi : Int) + (se : Int) - off)
      else none
    else none
  else none

/-! ## The history table -/

/-- A row of the `history` table. `datetime` is the stored instant in Unix
seconds. -/
structure HistRecord where
  user : String
  host : String
  command : String
  datetime : Int
deriving DecidableEq, Repr

/-- The `history` table in scan (insertion / rowid) order. -/
abbrev Table := List HistRecord

/-- `PRIMARY KEY (user, command, datetime)` — the host is not part of the
key (initDB, database/database.go). -/
def sameKey (a b : HistRecord) : Bool :=
  a.user == b.user && a.command == b.command && a.datetime == b.datetime

def keyPresent (t : Table) (r : HistRecord) : Bool := t.any fun x => sameKey x r

/-- One prepared `INSERT INTO history` execution: a primary-key conflict
leaves the table unchanged (the unique constraint absorbs the row). -/
def insert1 (t : Table) (r : HistRecord) : Table :=
  if keyPresent t r then t else t ++ [r]

def insertAll (t : Table) (rs : List HistRecord) : Table := rs.foldl insert1 t

/-! ## Model of `AddFromBuffer` -/

/-- Failures that abort the ingestion loop: a timestamp that matched the
regex but fails `time.Parse` (`tx.Rollback()` and an error return), and
the out-of-range slice index `args[lineFormat]` that occurs when a
shape-1 line is processed while `lineFormat` is still 3 (a Go panic; the
transaction is never committed). -/
inductive IngestErr where
  | badTimestamp
  | indexOutOfRange
deriving DecidableEq, Repr

/-- The three counters reported by `AddFromBuffer`. -/
structure Stats where
  total : Nat
  succeeded : Nat
  failed : Nat
deriving DecidableEq, Repr

/-- The body of the `AddFromBuffer` read loop. The `lf` argument is the
`lineFormat` variable: it starts at 1 and is only ever written when an
export-shape line is recognised (set to 3); it is *not* reset when a
shape-1 line is recognised. A shape-1 match yields a 3-element submatch
slice, so `args[lineFormat]` with `lf = 3` is out of range. -/
def addLines (user host : String) : List (List Char) → Nat → Table → Nat →
    Except IngestErr (Table × Nat)
  | [], _, t, f => .ok (t, f)
  | l :: ls, lf, t, f =>
    match matchParseLine l with
    | some (ts, cmd) =>
      if lf == 1 then
        match parseTs ts with
        | none => .error .badTimestamp
        | some dt =>
          addLines user host ls lf (insert1 t ⟨user, host, cmd.asString, dt⟩)
            (if keyPresent t ⟨user, host, cmd.asString, dt⟩ then f + 1 else f)
      else
        .error .indexOutOfRange
    | none =>
      match matchExportLine l with
      | some (u, h, ts, cmd) =>
        match parseTs ts with
        | none => .error .badTimestamp
        | some dt =>
          addLines user host ls 3 (insert1 t ⟨u.asString, h.asString, cmd.asString, dt⟩)
            (if keyPresent t ⟨u.asString, h.asString, cmd.asString, dt⟩ then f + 1 else f)
      | none => addLines user host ls lf t (f + 1)

/-- The sequence of records a batch would insert, ignoring the table (used
to reason about `addLines`; truncated at the first fatal error). -/
def batchRecords (user host : String) : List (List Char) → Nat → List HistRecord
  | [], _ => []
  | l :: ls, lf =>
    match matchParseLine l with
    | some (ts, cmd) =>
      if lf == 1 then
        match parseTs ts with
        | none => []
        | some dt => ⟨user, host, cmd.asString, dt⟩ :: batchRecords user host ls lf
      else []
    | none =>
      match matchExportLine l with
      | some (u, h, ts, cmd) =>
        match parseTs ts with
        | none => []
        | some dt => ⟨u.asString, h.asString, cmd.asString, dt⟩ :: batchRecords user host ls 3
      | none => batchRecords user host ls lf

/-- The fatal outcome of a batch, which depends only on the lines and the
incoming `lineFormat` state, never on the table contents. -/
def batchError : List (List Char) → Nat → Option IngestErr
  | [], _ => none
  | l :: ls, lf =>
    match matchParseLine l with
    | some (ts, _) =>
      if lf == 1 then
        match parseTs ts with
        | none => some .badTimestamp
        | some _ => batchError ls lf
      else some .indexOutOfRange
    | none =>
      match matchExportLine l with
      | some (_, _, ts, _) =>
        match parseTs ts with
        | none => some .badTimestamp
        | some _ => batchError ls 3
      | none => batchError ls lf

/-- Split the raw buffer as the `r.ReadString('\n')` loop consumes it:
each `\n`-terminated line (without its newline). A final fragment with no
terminating newline is returned together with `io.EOF`, upon which the
loop `break`s without processing it, so it is dropped; the `total--`
after the loop exactly cancels the count of the final EOF read. -/
def splitLinesAux : List Char → List Char → List (List Char)
  | [], _ => []
  | c :: rest, acc =>
    if c = '\n' then acc.reverse :: splitLinesAux rest [] else splitLinesAux rest (c :: acc)

def completeLines (s : List Char) : List (List Char) := splitLinesAux s []

/-- Model of `AddFromBuffer(r, user, host)` run against a table: first
component is the returned outcome (stats or fatal error), second is the
committed table — on any fatal outcome the transaction is rolled back
(or, for the panic, never committed), so the table is unchanged. -/
def addFromBufferRun (input : List Char) (user host : String) (t : Table) :
    Except IngestErr Stats × Table :=
  let lines := completeLines input
  match addLines user host lines 1 t 0 with
  | .error e => (.error e, t)
  | .ok (t', f) => (.ok ⟨lines.length, lines.length - f, f⟩, t')

/-! ## SQLite `LIKE` (the user/host/command filters) -/

/-- ASCII case folding: SQLite's `LIKE` is case-insensitive for ASCII. -/
def charFold (c : Char) : Char :=
  if 'A' ≤ c && c ≤ 'Z' then Char.ofNat (c.toNat + 32) else c

/-- SQLite `LIKE` matching with optional `ESCAPE '\'` (used for the
command pattern only). Structured with explicit fuel so that it is
structurally recursive; the fuel `pat.length + s.length + 1` always
suffices. -/
def likeFuel : Nat → Bool → List Char → List Char → Bool
  | 0, _, _, _ => false
  | fuel + 1, esc, pat, s =>
    match pat with
    | [] => s.isEmpty
    | '%' :: p =>
      likeFuel fuel esc p s ||
        (match s with
         | [] => false
         | _ :: s' => likeFuel fuel esc ('%' :: p) s')
    | '_' :: p =>
      match s with
      | [] => false
      | _ :: s' => likeFuel fuel esc p s'
    | c :: p =>
      if esc && c == '\\' then
        match p, s with
        | e :: p', d :: s' => charFold e == charFold d && likeFuel fuel esc p' s'
        | _, _ => false
      else
        match s with
        | [] => false
        | d :: s' => charFold c == charFold d && likeFuel fuel esc p s'

def sqlLike (esc : Bool) (pat s : String) : Bool :=
  likeFuel (pat.length + s.length + 1) esc pat.toList s.toList

/-! ## The query layer (database/queries.go)

`tableRowsFrom` attaches rowids: the history table is append-only in this
model, so rowids are consecutive scan positions starting at 1. -/

def tableRowsFrom (i : Nat) : Table → List (Nat × HistRecord)
  | [] => []
  | r :: rs => (i, r) :: tableRowsFrom (i + 1) rs

def tableRows (t : Table) : List (Nat × HistRecord) := tableRowsFrom 1 t

/-- The `WHERE user LIKE ? AND host LIKE ? AND command LIKE ? ESCAPE '\'`
filter. -/
def rowMatch (pU pH pC : String) (r : HistRecord) : Bool :=
  sqlLike false pU r.user && sqlLike false pH r.host && sqlLike true pC r.command

def filteredRows (pU pH pC : String) (t : Table) : List (Nat × HistRecord) :=
  (tableRows t).filter fun x => rowMatch pU pH pC x.2

/-- The row whose bare columns a SQLite `GROUP BY command` emits for the
group of `c`: the last row of the group in scan order. (SQLite documents
the representative of bare columns as unspecified; its implementation
yields the last row scanned, which is also what the repository's test
suite pins down — "should return latest command instance".) -/
def lastWithCommand (rows : List (Nat × HistRecord)) (c : String) : Option (Nat × HistRecord) :=
  (rows.filter fun x => x.2.command == c).getLast?

/-- The output rows of `GROUP BY command` over `rows` (one per distinct
command, bare columns from the group's last row in scan order). -/
def groupReps (rows : List (Nat × HistRecord)) : List (Nat × HistRecord) :=
  ((rows.map fun x => x.2.command).dedup).filterMap (lastWithCommand rows)

/-- `ORDER BY datetime ASC` comparison. -/
def byDtAsc (a b : Nat × HistRecord) : Prop := a.2.datetime ≤ b.2.datetime

/-- `ORDER BY datetime DESC` comparison. -/
def byDtDesc (a b : Nat × HistRecord) : Prop := b.2.datetime ≤ a.2.datetime

instance : DecidableRel byDtAsc := fun _ _ => Int.decLe _ _
instance : DecidableRel byDtDesc := fun _ _ => Int.decLe _ _

instance : IsTotal (Nat × HistRecord) byDtAsc := ⟨fun _ _ => Int.le_total _ _⟩
instance : IsTotal (Nat × HistRecord) byDtDesc := ⟨fun _ _ => Int.le_total _ _⟩
instance : IsTrans (Nat × HistRecord) byDtAsc := ⟨fun _ _ _ h h' => le_trans h h'⟩
instance : IsTrans (Nat × HistRecord) byDtDesc := ⟨fun _ _ _ h h' => le_trans h' h⟩

def sortAsc (l : List (Nat × HistRecord)) : List (Nat × HistRecord) :=
  List.insertionSort byDtAsc l

def sortDesc (l : List (Nat × HistRecord)) : List (Nat × HistRecord) :=
  List.insertionSort byDtDesc l

/-- SQLite `LIMIT k` with a Go `int` argument: a negative limit means no
limit. -/
def applyLimit (k : Int) (l : List (Nat × HistRecord)) : List (Nat × HistRecord) :=
  if k < 0 then l else l.take k.toNat

/-! ### The scanned destination variables

`rows.Scan(&row, &user, &host, &command, &t)` fills Go local variables;
`ScanRow` models their values for one result row. -/

structure ScanRow where
  row : Nat
  user : String
  host : String
  command : String
  t : Int
deriving DecidableEq, Repr

/-! Formatting helpers for `database/sql`'s conversion of a `time.Time`
column value into a `*string` destination (RFC 3339) and for the
renderer's time formats. Times in this model are UTC instants. -/

/-- Civil date (year, month, day) of a day count since 1970-01-01. -/
def civilFromDays (z0 : Int) : Int × Int × Int :=
  let z := z0 + 719468
  let era := Int.fdiv z 146097
  let doe := z - era * 146097
  let yoe := Int.fdiv (doe - Int.fdiv doe 1460 + Int.fdiv doe 36524 - Int.fdiv doe 146096) 365
  let y := yoe + era * 400
  let doy := doe - (365 * yoe + Int.fdiv yoe 4 - Int.fdiv yoe 100)
  let mp := Int.fdiv (5 * doy + 2) 153
  let d := doy - Int.fdiv (153 * mp + 2) 5 + 1
  let m := if mp < 10 then mp + 3 else mp - 9
  (if m ≤ 2 then y + 1 else y, m, d)

def instantToUTC (t : Int) : Int × Int × Int × Int × Int × Int :=
  let days := Int.fdiv t 86400
  let secs := t - days * 86400
  let (y, m, d) := civilFromDays days
  (y, m, d, Int.fdiv secs 3600, Int.fdiv (secs % 3600) 60, secs % 60)

def padNum (w : Nat) (n : Int) : String :=
  let s := toString n.toNat
  (String.mk (List.replicate (w - s.length) '0')) ++ s

/-- `time.RFC3339Nano` of a whole-second UTC instant, as produced when a
`time.Time` column value is scanned into a string destination. -/
def rfc3339NanoUTCString (t : Int) : String :=
  let (y, mo, da, h, mi, s) := instantToUTC t
  padNum 4 y ++ "-" ++ padNum 2 mo ++ "-" ++ padNum 2 da ++ "T" ++
    padNum 2 h ++ ":" ++ padNum 2 mi ++ ":" ++ padNum 2 s ++ "Z"

/-- The `RFC3339alt` layout `2006-01-02T15:04:05-0700` of a UTC instant. -/
def rfc3339altUTCString (t : Int) : String :=
  let (y, mo, da, h, mi, s) := instantToUTC t
  padNum 4 y ++ "-" ++ padNum 2 mo ++ "-" ++ padNum 2 da ++ "T" ++
    padNum 2 h ++ ":" ++ padNum 2 mi ++ ":" ++ padNum 2 s ++ "+0000"

/-- Go's default `time.Time` `%s` formatting of a UTC instant. -/
def goTimeStringUTC (t : Int) : String :=
  let (y, mo, da, h, mi, s) := instantToUTC t
  padNum 4 y ++ "-" ++ padNum 2 mo ++ "-" ++ padNum 2 da ++ " " ++
    padNum 2 h ++ ":" ++ padNum 2 mi ++ ":" ++ padNum 2 s ++ " +0000 UTC"

/-- Go's zero `time.Time` (0001-01-01T00:00:00Z) as Unix seconds. -/
def zeroTimeInstant : Int := daysFromCivil 1 1 1 * 86400

/-- Scan of a `SELECT rowid, user, host, command, datetime` result row
into `(&row, &user, &host, &command, &t)`: positions line up. -/
def scanStraight (x : Nat × HistRecord) : ScanRow :=
  ⟨x.1, x.2.user, x.2.host, x.2.command, x.2.datetime⟩

/-- Scan of a `SELECT rowid, datetime, user, host, command` result row
into `(&row, &user, &host, &command, &t)` — the unique branch of
`DefaultQuery`. The columns and destinations do not line up: the
datetime column (a `time.Time`) is converted into the `user` string
(RFC 3339), the user column lands in `host`, the host column lands in
`command`, and converting the command text into `*time.Time` fails, so
`Scan` returns an error — which the code ignores — leaving `t` at the
zero `time.Time`. -/
def scanMangledUnique (x : Nat × HistRecord) : ScanRow :=
  ⟨x.1, rfc3339NanoUTCString x.2.datetime, x.2.user, x.2.host, zeroTimeInstant⟩

/-- Model of `DefaultQuery` (database/queries.go): the list of scanned
rows handed to the renderer. -/
def defaultQueryRows (pU pH pC : String) (uniq : Bool) (t : Table) : List ScanRow :=
  if uniq then
    (sortAsc (groupReps (filteredRows pU pH pC t))).map scanMangledUnique
  else
    (filteredRows pU pH pC t).map scanStraight

/-- Model of `LastK` (database/queries.go): inner query orders the
(grouped, when unique) filtered rows by datetime descending and applies
`LIMIT kappa`; the outer query re-orders ascending. -/
def lastKRows (pU pH pC : String) (uniq : Bool) (kappa : Int) (t : Table) : List ScanRow :=
  let base := if uniq then groupReps (filteredRows pU pH pC t) else filteredRows pU pH pC t
  (sortAsc (applyLimit kappa (sortDesc base))).map scanStraight

/-! ## The result renderer (result package, part_004) -/

def FORMAT_BASH_HISTORY : String := "restore"
def FORMAT_ALL : String := "all"
def FORMAT_COMMAND_LINE : String := "command_line"
def FORMAT_TIMESTAMP : String := "timestamp"
def FORMAT_LOG : String := "log"
def FORMAT_JSON : String := "json"
def FORMAT_EXPORT : String := "export"

def strL (s : String) : List Char := s.data

def hexDigit (n : Nat) : Char :=
  if n < 10 then Char.ofNat ('0'.toNat + n) else Char.ofNat ('a'.toNat + (n - 10))

/-- `encoding/json` string escaping (with Go's default HTML escaping). -/
def jsonEscapeChar (c : Char) : List Char :=
  if c == '"' then ['\\', '"']
  else if c == '\\' then ['\\', '\\']
  else if c == '\n' then ['\\', 'n']
  else if c == '\r' then ['\\', 'r']
  else if c == '\t' then ['\\', 't']
  else if c == '<' then strL "\\u003c"
  else if c == '>' then strL "\\u003e"
  else if c == '&' then strL "\\u0026"
  else if c.toNat < 32 then strL "\\u00" ++ [hexDigit (c.toNat / 16), hexDigit (c.toNat % 16)]
  else [c]

def jsonQuote (s : String) : List Char :=
  '"' :: (s.data.flatMap jsonEscapeChar) ++ ['"']

/-- `json.Marshal` of the `rowJson` struct. -/
def jsonMarshalRow (row : Nat) (dt user host command : String) : List Char :=
  strL "\x7b\"Row\":" ++ strL (toString row) ++
    strL ",\"Datetime\":" ++ jsonQuote dt ++
    strL ",\"User\":" ++ jsonQuote user ++
    strL ",\"Host\":" ++ jsonQuote host ++
    strL ",\"Command\":" ++ jsonQuote command ++ strL "\x7d"

def padLeftSpaces (w : Nat) (s : String) : List Char :=
  List.replicate (w - s.length) ' ' ++ s.data

/-- The per-row rendering of `AddRow` for each supported format
(format strings at the top of the result package). -/
def renderRow (format : String) (row : Nat) (user host command : String) (datetime : Int) : List Char :=
  if format == FORMAT_ALL then
    strL (padNum 5 (row : Int)) ++ strL " | " ++ strL (goTimeStringUTC datetime) ++ strL " | " ++
      padLeftSpaces 10 user ++ strL " | " ++ padLeftSpaces 10 host ++ strL " | " ++ strL command
  else if format == FORMAT_BASH_HISTORY then
    '#' :: strL (toString datetime) ++ '\n' :: strL command
  else if format == FORMAT_TIMESTAMP then
    strL (goTimeStringUTC datetime) ++ strL ": " ++ strL command
  else if format == FORMAT_LOG then
    strL (rfc3339altUTCString datetime) ++ ' ' :: strL user ++ '@' :: strL host ++ ' ' :: strL command
  else if format == FORMAT_JSON then
    jsonMarshalRow row (rfc3339altUTCString datetime) user host command
  else if format == FORMAT_EXPORT then
    strL user ++ ' ' :: strL host ++ ' ' :: strL (rfc3339altUTCString datetime) ++ ' ' :: strL command
  else
    strL (toString row) ++ ' ' :: strL command

/-- The mutable state of a `Result` (the `digits` field only matters for
`AddCountRow`, which is not modelled here). -/
structure GoResult where
  out : List Char
  written : Bool
  format : String
deriving DecidableEq, Repr

/-- `result.New(format)`: the JSON format pre-writes the opening of the
container. -/
def Result.new (format : String) : GoResult :=
  ⟨if format == FORMAT_JSON then strL "[\n" else [], false, format⟩

/-- The separator `AddRow` writes before every row except the first. -/
def sepFor (format : String) : List Char :=
  if format == FORMAT_JSON then strL ",\n" else strL "\n"

/-- `Result.AddRow`. -/
def addRow (r : GoResult) (row : Nat) (user host command : String) (datetime : Int) : GoResult :=
  let r1 : GoResult :=
    if r.written then { r with out := r.out ++ sepFor r.format } else { r with written := true }
  { r1 with out := r1.out ++ renderRow r1.format row user host command datetime }

def addRows (r : GoResult) (rows : List ScanRow) : GoResult :=
  rows.foldl (fun acc x => addRow acc x.row x.user x.host x.command x.t) r

/-- `Result.Formatted`: closes the JSON container. (The Go code consults
the process-global `conf.QParams.Format` here; in local operation that is
the same format the `Result` was built with, which is how it is used
below.) -/
def formatted (globalFormat : String) (r : GoResult) : List Char :=
  if globalFormat == FORMAT_JSON then r.out ++ strL "\n]" else r.out

/-- Rows joined by a separator, with no leading or trailing separator:
the shape the renderer is specified to produce. -/
def joinSep (sep : List Char) : List (List Char) → List Char
  | [] => []
  | [a] => a
  | a :: l => a ++ sep ++ joinSep sep l

def isJsonWs (c : Char) : Bool := c == ' ' || c == '\n' || c == '\t' || c == '\r'

/-- Checker for a syntactically valid *empty* JSON array (the claim's
"empty-but-valid container"): `[` and `]` with only whitespace around. -/
def isEmptyJsonArrayText (s : List Char) : Bool :=
  match s.dropWhile isJsonWs with
  | '[' :: r =>
    match r.dropWhile isJsonWs with
    | ']' :: r2 => (r2.dropWhile isJsonWs).isEmpty
    | _ => false
  | _ => false

/-! ## Schema versioning and migration (database/database.go) -/

def VERSION : String := "2"

/-- Coarse model of the store's on-disk schema state: the admin version
row plus which schema objects exist. -/
structure Schema where
  version : String
  history : Table
  connlogRebuilt : Bool
  hasRlookup : Bool
  hasConnectionsView : Bool
deriving DecidableEq, Repr

inductive MigrateErr where
  | versionMismatch
deriving DecidableEq, Repr

/-- `initDB`: fresh schema at the current version. -/
def freshSchema : Schema := ⟨VERSION, [], true, true, true⟩

/-- `migrate`: reads the recorded version; version "1" is upgraded in one
transaction; version "2" is current; any other version falls through the
switch to the `version != VERSION` check and fails, touching nothing.
The second component is the store state after the call. -/
def migrateRun (s : Schema) : Except MigrateErr Unit × Schema :=
  match s.version with
  | "1" => (.ok (), ⟨VERSION, s.history, true, true, true⟩)
  | "2" => (.ok (), s)
  | _ => (.error .versionMismatch, s)

/-- `New`: create a fresh store if the file is absent, otherwise migrate
the existing one. Returns the resulting store state. -/
def openStore (existing : Option Schema) : Except MigrateErr Schema × Option Schema :=
  match existing with
  | none => (.ok freshSchema, some freshSchema)
  | some s =>
    match migrateRun s with
    | (.ok _, s') => (.ok s', some s')
    | (.error e, s') => (.error e, some s')

/-! ## The content-window query, modelled from the spec

Modelled from the spec: the content-window query (spec section 4.3,
"Content-window query") is not present in the source tree — `RunQuery`
in database/queries.go has no case for it. The filtered scope is
abstracted as its scan positions `0, …, n-1` in ascending timestamp
order; `window` builds the context window of a match as the spec's
"up to before+1 rows with timestamp ≤ t … followed by up to after rows
with timestamp > t", and `mergeWindows` is the spec's backward merge
pass: for window i, find the first row identifier of window i+1 inside
window i; when found, keep window i up to that position and splice all
of window i+1 behind it. -/

/-- The context window of a match at scope position `m`: positions
`m - before` through `min (m + after) (n - 1)`, in ascending order. -/
def window (n before after m : Nat) : List Nat :=
  List.range' (m - before) (min (m + after) (n - 1) + 1 - (m - before))

def windows (n before after : Nat) (ms : List Nat) : List (List Nat) :=
  ms.map (window n before after)

/-- One merge attempt: if the first row identifier of `w'` occurs in `w`,
splice `w'` onto `w` at that position (the overlap is covered once). -/
def mergeStep (w w' : List Nat) : Option (List Nat) :=
  match w' with
  | [] => none
  | h :: _ => if h ∈ w then some (w.take (w.indexOf h) ++ w') else none

/-- The backward merge pass over the window list: the list is processed
from the last window towards the first, each window merging with the
(already merged) head of the remaining list when they share its first
row identifier. -/
def mergeWindows : List (List Nat) → List (List Nat)
  | [] => []
  | w :: rest =>
    match mergeWindows rest with
    | [] => [w]
    | w' :: r =>
      match mergeStep w w' with
      | some m => m :: r
      | none => w :: w' :: r

/-- The merged blocks the content-window query renders. -/
def contentBlocks (n before after : Nat) (ms : List Nat) : List (List Nat) :=
  mergeWindows (windows n before after ms)

/-- Interval abstraction used to reason about `mergeWindows`: a window is
the closed interval of its first and last positions. -/
def ivOf (n before after m : Nat) : Nat × Nat :=
  (m - before, min (m + after) (n - 1))

def iv (p : Nat × Nat) : List Nat := List.range' p.1 (p.2 + 1 - p.1)

/-- `mergeWindows` on intervals. -/
def mergeIvs : List (Nat × Nat) → List (Nat × Nat)
  | [] => []
  | x :: rest =>
    match mergeIvs rest with
    | [] => [x]
    | y :: r => if y.1 ≤ x.2 then (x.1, y.2) :: r else x :: y :: r

/-! ## Spec-side definitions (for comparison against the claims' words) -/

def splitNlAux : List Char → List Char → List (List Char)
  | [], acc => [acc.reverse]
  | c :: rest, acc =>
    if c = '\n' then acc.reverse :: splitNlAux rest [] else splitNlAux rest (c :: acc)

/-- All newline-separated segments of the input, including a trailing
empty segment when the input ends with a newline. -/
def splitNl (s : List Char) : List (List Char) := splitNlAux s []

/-- Definition following the claim's words: the total is "lines seen
minus any trailing empty line". -/
def specTotalLines (s : List Char) : Nat :=
  let parts := splitNl s
  (if parts.getLast? = some ([] : List Char) then parts.dropLast else parts).length

/-- Definition following the claim's words: "the number of non-empty
input lines". -/
def specNonEmptyLines (s : List Char) : Nat :=
  ((splitNl s).filter fun l => !l.isEmpty).length

/-! ## Concrete fixtures used by counterexamples and witnesses -/

/-- A batch whose first line is export-shaped and whose second line is
shell-history-shaped. -/
def c3input : List Char :=
  "user1 host1 2015-10-12T12:00:00+0000 ls\n 1 2015-10-12T12:01:00+0000 pwd\n".toList

/-- A batch whose final line is not newline-terminated. -/
def c8input : List Char := "ls\nmv".toList

/-- Two rows with the same command, timestamps in insertion order. -/
def c5tbl : Table := [⟨"u1", "h1", "ls", 0⟩, ⟨"u1", "h1", "ls", 100⟩]

/-- Two rows with the same command, the later-inserted row having the
older timestamp. -/
def c6tbl : Table := [⟨"u1", "h1", "ls", 100⟩, ⟨"u1", "h1", "ls", 50⟩]

/-- A line that matches one of the two shapes but whose captured
timestamp group fails to parse. (The code consults shape 2 only when
shape 1 fails, and the two shapes are in fact mutually exclusive: after
optional leading spaces a shape-1 line starts with a digit while a
shape-2 line starts with a letter or underscore and no leading space.) -/
def badTsLine (l : List Char) : Prop :=
  (∃ ts cmd, matchParseLine l = some (ts, cmd) ∧ parseTs ts = none) ∨
  (matchParseLine l = none ∧
    ∃ u h ts cmd, matchExportLine l = some (u, h, ts, cmd) ∧ parseTs ts = none)

instance {ε α : Type} [DecidableEq ε] [DecidableEq α] : DecidableEq (Except ε α) := fun x y =>
  match x, y with
  | .ok a, .ok b =>
    if h : a = b then .isTrue (by rw [h]) else .isFalse fun hc => h (by injection hc)
  | .error a, .error b =>
    if h : a = b then .isTrue (by rw [h]) else .isFalse fun hc => h (by injection hc)
  | .ok _, .error _ => .isFalse fun hc => Except.noConfusion hc
  | .error _, .ok _ => .isFalse fun hc => Except.noConfusion hc

/-! # Theorems -/

/-! ## Claim C7: unknown schema version fails closed -/

/-- Claim C7: for every existing store whose recorded schema version is
neither "1" nor the current version "2", opening the store returns an
error, no migration step is applied, and the store state is unchanged. -/
theorem migrate_unknown_version_fails_closed (s : Schema)
    (h1 : s.version ≠ "1") (h2 : s.version ≠ "2") :
    openStore (some s) = (.error .versionMismatch, some s) ∧ (migrateRun s).2 = s := by
  have hm : migrateRun s = (.error .versionMismatch, s) := by
    unfold migrateRun
    split <;> simp_all
  exact ⟨by simp only [openStore, hm], by rw [hm]⟩

/-- Witness for C7 at the concrete recorded version "3". -/
theorem migrate_unknown_version_fails_closed_witness :
    openStore (some ⟨"3", [], true, true, true⟩) =
        (.error .versionMismatch, some ⟨"3", [], true, true, true⟩) ∧
      (migrateRun ⟨"3", [], true, true, true⟩).2 = ⟨"3", [], true, true, true⟩ :=
  migrate_unknown_version_fails_closed ⟨"3", [], true, true, true⟩ (by decide) (by decide)

/-! ## Claim C3: per-line shape detection (code bug) -/

/-- Claim C3 (code bug): in a batch where a shell-history-shape line
follows an export-shape line, the second line does match shape 1, but
the `lineFormat` state variable is still 3 from the previous line, so
the code reads `args[3]` of the 3-element shape-1 submatch slice — an
out-of-range index (a Go panic) that aborts the whole batch instead of
inserting the line with the call's default user and host. Nothing is
committed. -/
theorem addFromBuffer_mixed_format_out_of_range :
    matchParseLine " 1 2015-10-12T12:01:00+0000 pwd".toList =
      some ("2015-10-12T12:01:00+0000".toList, "pwd".toList) ∧
    addFromBufferRun c3input "user" "host" [] = (.error .indexOutOfRange, []) := by
  decide

/-! ## Claim C8: ingestion counters -/

/-- Claim C8 (counterexample): for the batch `"ls\nmv"` — whose final
line is not newline-terminated — the reported total is 1, while the
claim's total ("the number of non-empty input lines", parenthesised as
"lines seen minus any trailing empty line") is 2 under either reading:
the final unterminated line is silently dropped by the read loop. -/
theorem addFromBuffer_total_miscount :
    (addFromBufferRun c8input "u" "h" []).1 = .ok ⟨1, 0, 1⟩ ∧
      specTotalLines c8input = 2 ∧ specNonEmptyLines c8input = 2 := by
  decide

/-- The failure counter grows by at most one per processed line. -/
theorem addLines_failed_le (user host : String) :
    ∀ (ls : List (List Char)) (lf : Nat) (t : Table) (f : Nat) (t' : Table) (f' : Nat),
      addLines user host ls lf t f = .ok (t', f') → f' ≤ f + ls.length := by
  intro ls
  induction ls with
  | nil =>
    intro lf t f t' f' h
    simp only [addLines, Except.ok.injEq, Prod.mk.injEq] at h
    omega
  | cons l ls ih =>
    intro lf t f t' f' h
    cases hp : matchParseLine l with
    | some p =>
      obtain ⟨ts, cmd⟩ := p
      simp only [addLines, hp] at h
      by_cases hlf : (lf == 1) = true
      · rw [if_pos hlf] at h
        cases hq : parseTs ts with
        | none => exact absurd h (by simp only [hq]; simp)
        | some dt =>
          simp only [hq] at h
          have := ih lf _ _ _ _ h
          simp only [List.length_cons]
          split at this <;> omega
      · rw [if_neg hlf] at h
        exact absurd h (by simp)
    | none =>
      simp only [addLines, hp] at h
      cases he : matchExportLine l with
      | some q =>
        obtain ⟨u, h2, ts, cmd⟩ := q
        simp only [he] at h
        cases hq : parseTs ts with
        | none => exact absurd h (by simp only [hq]; simp)
        | some dt =>
          simp only [hq] at h
          have := ih 3 _ _ _ _ h
          simp only [List.length_cons]
          split at this <;> omega
      | none =>
        simp only [he] at h
        have := ih lf _ _ _ _ h
        simp only [List.length_cons]
        omega

/-- Claim C8 (amended): for every batch that returns without a fatal
error, succeeded + failed = total, where total is the number of
newline-terminated lines of the input (interior empty lines included; a
final line without a terminating newline is silently dropped and not
counted). -/
theorem addFromBuffer_counters (input : List Char) (user host : String) (t : Table) (st : Stats)
    (h : (addFromBufferRun input user host t).1 = .ok st) :
    st.succeeded + st.failed = st.total ∧ st.total = (completeLines input).length := by
  simp only [addFromBufferRun] at h
  cases ha : addLines user host (completeLines input) 1 t 0 with
  | error e => exact absurd h (by simp only [ha]; simp)
  | ok p =>
    obtain ⟨t', f⟩ := p
    simp only [ha, Except.ok.injEq] at h
    have hle : f ≤ 0 + (completeLines input).length := addLines_failed_le user host _ _ _ _ _ _ ha
    subst h
    refine ⟨?_, rfl⟩
    simp only
    omega

/-- Witness for C8 (amended) at the `"ls\nmv"` batch. -/
theorem addFromBuffer_counters_witness :
    (⟨1, 0, 1⟩ : Stats).succeeded + (⟨1, 0, 1⟩ : Stats).failed = (⟨1, 0, 1⟩ : Stats).total ∧
      (⟨1, 0, 1⟩ : Stats).total = (completeLines c8input).length :=
  addFromBuffer_counters c8input "u" "h" [] ⟨1, 0, 1⟩ (by decide)

/-! ## Claim C9: renderer separator discipline -/

/-- Once the `written` flag is set, every further `AddRow` first appends
the separator and then the rendered row. -/
theorem addRows_written (fmt : String) (rows : List ScanRow) :
    ∀ out : List Char,
      addRows ⟨out, true, fmt⟩ rows =
        ⟨out ++ (rows.map fun x =>
            sepFor fmt ++ renderRow fmt x.row x.user x.host x.command x.t).flatten, true, fmt⟩ := by
  induction rows with
  | nil => intro out; simp [addRows]
  | cons x xs ih =>
    intro out
    have hstep : addRow ⟨out, true, fmt⟩ x.row x.user x.host x.command x.t =
        ⟨(out ++ sepFor fmt) ++ renderRow fmt x.row x.user x.host x.command x.t, true, fmt⟩ := by
      simp [addRow]
    calc addRows ⟨out, true, fmt⟩ (x :: xs)
        = addRows ⟨(out ++ sepFor fmt) ++ renderRow fmt x.row x.user x.host x.command x.t,
            true, fmt⟩ xs := by
          simp only [addRows, List.foldl_cons, hstep]
      _ = _ := by
          rw [ih]
          simp [List.append_assoc]

/-- `joinSep` in terms of a separator-prefixed tail. -/
theorem joinSep_cons_eq (sep a : List Char) (l : List (List Char)) :
    joinSep sep (a :: l) = a ++ (l.map fun b => sep ++ b).flatten := by
  induction l generalizing a with
  | nil => simp [joinSep]
  | cons b bs ih =>
    calc joinSep sep (a :: b :: bs) = a ++ sep ++ joinSep sep (b :: bs) := by rfl
      _ = a ++ sep ++ (b ++ (bs.map fun c => sep ++ c).flatten) := by rw [ih]
      _ = _ := by simp [List.append_assoc]

/-- Claim C9: for every output format and every sequence of `AddRow`
calls, the bytes returned by `Formatted` are exactly the rendered rows
joined by the record separator only between consecutive entries (no
leading or trailing separator; the JSON container brackets surround the
joined rows), and for the JSON format a result with zero rows is still a
syntactically valid empty JSON container. -/
theorem result_separator_discipline (format : String) (rows : List ScanRow) :
    formatted format (addRows (Result.new format) rows) =
      (if format == FORMAT_JSON then strL "[\n" else []) ++
        joinSep (sepFor format)
          (rows.map fun x => renderRow format x.row x.user x.host x.command x.t) ++
        (if format == FORMAT_JSON then strL "\n]" else []) ∧
    isEmptyJsonArrayText (formatted FORMAT_JSON (addRows (Result.new FORMAT_JSON) [])) = true := by
  refine ⟨?_, by decide⟩
  cases rows with
  | nil =>
    cases hj : (format == FORMAT_JSON) <;>
      simp [addRows, Result.new, formatted, joinSep, hj]
  | cons x xs =>
    have hfirst : addRow (Result.new format) x.row x.user x.host x.command x.t =
        ⟨(if format == FORMAT_JSON then strL "[\n" else []) ++
            renderRow format x.row x.user x.host x.command x.t, true, format⟩ := by
      simp [addRow, Result.new]
    calc formatted format (addRows (Result.new format) (x :: xs))
        = formatted format (addRows ⟨(if format == FORMAT_JSON then strL "[\n" else []) ++
            renderRow format x.row x.user x.host x.command x.t, true, format⟩ xs) := by
          simp only [addRows, List.foldl_cons, hfirst]
      _ = _ := by
          rw [addRows_written]
          simp only [List.map_cons, joinSep_cons_eq]
          cases hj : (format == FORMAT_JSON) <;>
            simp [formatted, hj, List.append_assoc, Function.comp_def]

/-! ## Ingestion lemmas shared by C2, C4 and C10 -/

theorem keyPresent_insert1 (t : Table) (x r : HistRecord) (h : keyPresent t r = true) :
    keyPresent (insert1 t x) r = true := by
  unfold insert1
  split
  · exact h
  · unfold keyPresent at *
    simp only [List.any_append, h, Bool.true_or]

theorem keyPresent_insertAll (rs : List HistRecord) (t : Table) (r : HistRecord)
    (h : keyPresent t r = true) : keyPresent (insertAll t rs) r = true := by
  induction rs generalizing t with
  | nil => exact h
  | cons x xs ih => exact ih _ (keyPresent_insert1 _ _ _ h)

theorem keyPresent_self_insert1 (t : Table) (r : HistRecord) :
    keyPresent (insert1 t r) r = true := by
  unfold insert1
  split
  · assumption
  · unfold keyPresent
    simp [List.any_append, sameKey]

theorem keyPresent_insertAll_mem (rs : List HistRecord) (t : Table) (r : HistRecord)
    (h : r ∈ rs) : keyPresent (insertAll t rs) r = true := by
  induction rs generalizing t with
  | nil => cases h
  | cons x xs ih =>
    cases h with
    | head => exact keyPresent_insertAll xs _ _ (keyPresent_self_insert1 t r)
    | tail _ hmem => exact ih _ hmem

theorem insertAll_noop (rs : List HistRecord) (t : Table)
    (h : ∀ r ∈ rs, keyPresent t r = true) : insertAll t rs = t := by
  induction rs with
  | nil => rfl
  | cons x xs ih =>
    have hx : insert1 t x = t := by
      unfold insert1; rw [if_pos (h x (List.mem_cons_self x xs))]
    show insertAll (insert1 t x) xs = t
    rw [hx]
    exact ih fun r hr => h r (List.mem_cons_of_mem _ hr)

/-- Re-inserting a record multiset over a table that already absorbed it
is a no-op: all its keys are present. -/
theorem insertAll_idem (t : Table) (rs : List HistRecord) :
    insertAll (insertAll t rs) rs = insertAll t rs :=
  insertAll_noop rs _ fun r hr => keyPresent_insertAll_mem rs t r hr

/-- When a batch has no fatal outcome, `addLines` succeeds and the final
table is the fold of duplicate-absorbing inserts of the batch records. -/
theorem addLines_ok_of_batchError_none (user host : String) :
    ∀ (ls : List (List Char)) (lf : Nat) (t : Table) (f : Nat),
      batchError ls lf = none →
      ∃ f', addLines user host ls lf t f =
        .ok (insertAll t (batchRecords user host ls lf), f') := by
  intro ls
  induction ls with
  | nil => intro lf t f _; exact ⟨f, rfl⟩
  | cons l ls ih =>
    intro lf t f hbe
    cases hp : matchParseLine l with
    | some p =>
      obtain ⟨ts, cmd⟩ := p
      simp only [batchError, hp] at hbe
      by_cases hlf : (lf == 1) = true
      · rw [if_pos hlf] at hbe
        cases hq : parseTs ts with
        | none => rw [hq] at hbe; exact absurd hbe (by simp)
        | some dt =>
          rw [hq] at hbe
          obtain ⟨f', hf'⟩ := ih lf (insert1 t ⟨user, host, cmd.asString, dt⟩)
            (if keyPresent t ⟨user, host, cmd.asString, dt⟩ then f + 1 else f) hbe
          refine ⟨f', ?_⟩
          simp only [addLines, hp, if_pos hlf, hq, batchRecords]
          exact hf'
      · rw [if_neg hlf] at hbe; exact absurd hbe (by simp)
    | none =>
      cases he : matchExportLine l with
      | some q =>
        obtain ⟨u2, h2, ts, cmd⟩ := q
        simp only [batchError, hp, he] at hbe
        cases hq : parseTs ts with
        | none => rw [hq] at hbe; exact absurd hbe (by simp)
        | some dt =>
          rw [hq] at hbe
          obtain ⟨f', hf'⟩ := ih 3 (insert1 t ⟨u2.asString, h2.asString, cmd.asString, dt⟩)
            (if keyPresent t ⟨u2.asString, h2.asString, cmd.asString, dt⟩ then f + 1 else f) hbe
          refine ⟨f', ?_⟩
          simp only [addLines, hp, he, hq, batchRecords]
          exact hf'
      | none =>
        simp only [batchError, hp, he] at hbe
        obtain ⟨f', hf'⟩ := ih lf t (f + 1) hbe
        refine ⟨f', ?_⟩
        simp only [addLines, hp, he, batchRecords]
        exact hf'

/-- A fatal batch outcome is independent of the table and counters. -/
theorem addLines_error_of_batchError (user host : String) :
    ∀ (ls : List (List Char)) (lf : Nat) (t : Table) (f : Nat) (e : IngestErr),
      batchError ls lf = some e → addLines user host ls lf t f = .error e := by
  intro ls
  induction ls with
  | nil => intro lf t f e h; exact absurd h (by simp [batchError])
  | cons l ls ih =>
    intro lf t f e hbe
    cases hp : matchParseLine l with
    | some p =>
      obtain ⟨ts, cmd⟩ := p
      simp only [batchError, hp] at hbe
      by_cases hlf : (lf == 1) = true
      · rw [if_pos hlf] at hbe
        cases hq : parseTs ts with
        | none =>
          rw [hq] at hbe
          simp only [Option.some.injEq] at hbe
          simp only [addLines, hp, if_pos hlf, hq, hbe]
        | some dt =>
          rw [hq] at hbe
          simp only [addLines, hp, if_pos hlf, hq]
          exact ih _ _ _ _ hbe
      · rw [if_neg hlf] at hbe
        simp only [Option.some.injEq] at hbe
        simp only [addLines, hp, if_neg hlf, hbe]
    | none =>
      cases he : matchExportLine l with
      | some q =>
        obtain ⟨u2, h2, ts, cmd⟩ := q
        simp only [batchError, hp, he] at hbe
        cases hq : parseTs ts with
        | none =>
          rw [hq] at hbe
          simp only [Option.some.injEq] at hbe
          simp only [addLines, hp, he, hq, hbe]
        | some dt =>
          rw [hq] at hbe
          simp only [addLines, hp, he, hq]
          exact ih _ _ _ _ hbe
      | none =>
        simp only [batchError, hp, he] at hbe
        simp only [addLines, hp, he]
        exact ih _ _ _ _ hbe

/-- The committed table of a run: unchanged on a fatal outcome, otherwise
the duplicate-absorbing fold of the batch records. -/
theorem addFromBufferRun_table (input : List Char) (user host : String) (t : Table) :
    (addFromBufferRun input user host t).2 =
      match batchError (completeLines input) 1 with
      | some _ => t
      | none => insertAll t (batchRecords user host (completeLines input) 1) := by
  cases hbe : batchError (completeLines input) 1 with
  | some e =>
    have h := addLines_error_of_batchError user host (completeLines input) 1 t 0 e hbe
    simp only [addFromBufferRun, h]
  | none =>
    obtain ⟨f', hf'⟩ := addLines_ok_of_batchError_none user host (completeLines input) 1 t 0 hbe
    simp only [addFromBufferRun, hf']

/-- Splitting off the first newline-terminated line. -/
theorem splitLinesAux_append (l : List Char) (hnl : '\n' ∉ l) :
    ∀ (acc rest : List Char),
      splitLinesAux (l ++ '\n' :: rest) acc = (acc.reverse ++ l) :: splitLinesAux rest [] := by
  induction l with
  | nil => intro acc rest; simp [splitLinesAux]
  | cons c cs ih =>
    intro acc rest
    have hc : ¬(c = '\n') := fun h => hnl (h ▸ List.mem_cons_self c cs)
    have hcs : '\n' ∉ cs := fun h => hnl (List.mem_cons_of_mem _ h)
    simp only [List.cons_append, splitLinesAux, if_neg hc]
    show splitLinesAux (cs ++ '\n' :: rest) (c :: acc) =
      (acc.reverse ++ c :: cs) :: splitLinesAux rest []
    rw [ih hcs]
    simp

/-- A single newline-terminated line is one complete line. -/
theorem completeLines_single (l : List Char) (hnl : '\n' ∉ l) :
    completeLines (l ++ ['\n']) = [l] := by
  unfold completeLines
  rw [splitLinesAux_append l hnl [] []]
  simp [splitLinesAux]

/-- A record with the same (user, command, datetime) key is detected as
present whatever its host. -/
theorem keyPresent_of_mem (t : Table) (r : HistRecord) (key : HistRecord)
    (hr : r ∈ t) (hu : r.user = key.user) (hc : r.command = key.command)
    (hd : r.datetime = key.datetime) : keyPresent t key = true := by
  unfold keyPresent
  rw [List.any_eq_true]
  exact ⟨r, hr, by simp [sameKey, hu, hc, hd]⟩

/-! ## Claim C2: ingestion idempotence on the natural key -/

/-- Claim C2: re-running the same batch leaves the committed history
table exactly as after the first run (in particular the row count is
unchanged), and a single re-submitted line whose (user, command,
timestamp) key is already stored inserts no row, raises no error, and is
reported as the one failed (duplicate) entry. -/
theorem addFromBuffer_idempotent_on_key :
    (∀ (input : List Char) (user host : String) (t : Table),
      (addFromBufferRun input user host (addFromBufferRun input user host t).2).2 =
        (addFromBufferRun input user host t).2) ∧
    (∀ (l ts cmd : List Char) (user host : String) (dt : Int) (t : Table),
      matchParseLine l = some (ts, cmd) →
      parseTs ts = some dt →
      '\n' ∉ l →
      keyPresent t ⟨user, host, cmd.asString, dt⟩ = true →
      addFromBufferRun (l ++ ['\n']) user host t = (.ok ⟨1, 0, 1⟩, t)) := by
  constructor
  · intro input user host t
    rw [addFromBufferRun_table input user host t,
      addFromBufferRun_table input user host
        (match batchError (completeLines input) 1 with
         | some _ => t
         | none => insertAll t (batchRecords user host (completeLines input) 1))]
    cases hbe : batchError (completeLines input) 1 with
    | some e => rfl
    | none => exact insertAll_idem t _
  · intro l ts cmd user host dt t hp hq hnl hkey
    have hsplit : completeLines (l ++ ['\n']) = [l] := completeLines_single l hnl
    have hstep : addLines user host [l] 1 t 0 = .ok (t, 1) := by
      simp only [addLines, hp, hq, hkey]
      have hins : insert1 t ⟨user, host, cmd.asString, dt⟩ = t := by
        unfold insert1; rw [if_pos hkey]
      simp [hins]
    simp only [addFromBufferRun, hsplit, hstep]
    rfl

/-- Witness for C2: the example batch of the spec re-submitted. -/
theorem addFromBuffer_idempotent_on_key_witness :
    (addFromBufferRun "1  2020-01-01T00:00:00+0000 ls\n".toList "user1" "host1"
        (addFromBufferRun "1  2020-01-01T00:00:00+0000 ls\n".toList "user1" "host1" []).2).2 =
      (addFromBufferRun "1  2020-01-01T00:00:00+0000 ls\n".toList "user1" "host1" []).2 ∧
    addFromBufferRun ("1  2020-01-01T00:00:00+0000 ls".toList ++ ['\n']) "user1" "host1"
        [⟨"user1", "host1", "ls", 1577836800⟩] =
      (.ok ⟨1, 0, 1⟩, [⟨"user1", "host1", "ls", 1577836800⟩]) :=
  ⟨addFromBuffer_idempotent_on_key.1 _ "user1" "host1" [],
    addFromBuffer_idempotent_on_key.2 "1  2020-01-01T00:00:00+0000 ls".toList
      "2020-01-01T00:00:00+0000".toList "ls".toList "user1" "host1" 1577836800
      [⟨"user1", "host1", "ls", 1577836800⟩]
      (by decide) (by decide) (by decide) (by decide)⟩

/-! ## Claim C4: malformed-timestamp atomicity -/

/-- A batch containing a shape-matching line with an unparsable timestamp
aborts with an error whatever the table, counters and format state. -/
theorem addLines_error_of_badTs (user host : String) :
    ∀ (ls : List (List Char)) (lf : Nat) (t : Table) (f : Nat),
      (∃ l ∈ ls, badTsLine l) →
      ∃ e, addLines user host ls lf t f = .error e := by
  intro ls
  induction ls with
  | nil => intro lf t f h; obtain ⟨l, hl, _⟩ := h; cases hl
  | cons l ls ih =>
    intro lf t f hbad
    cases hp : matchParseLine l with
    | some p =>
      obtain ⟨ts, cmd⟩ := p
      by_cases hlf : (lf == 1) = true
      · cases hq : parseTs ts with
        | none => exact ⟨.badTimestamp, by simp only [addLines, hp, if_pos hlf, hq]⟩
        | some dt =>
          have hbad' : ∃ l' ∈ ls, badTsLine l' := by
            obtain ⟨l', hl', hb⟩ := hbad
            cases hl' with
            | head =>
              cases hb with
              | inl hb1 =>
                obtain ⟨ts', cmd', hm, hn⟩ := hb1
                rw [hp] at hm
                obtain ⟨h1, h2⟩ := Prod.mk.injEq .. ▸ (Option.some.injEq .. ▸ hm)
                exact absurd hn (by rw [← h1, hq]; simp)
              | inr hb2 => exact absurd hb2.1 (by rw [hp]; simp)
            | tail _ hmem => exact ⟨l', hmem, hb⟩
          obtain ⟨e, he⟩ := ih lf (insert1 t ⟨user, host, cmd.asString, dt⟩)
            (if keyPresent t ⟨user, host, cmd.asString, dt⟩ then f + 1 else f) hbad'
          exact ⟨e, by simp only [addLines, hp, if_pos hlf, hq]; exact he⟩
      · exact ⟨.indexOutOfRange, by simp only [addLines, hp, if_neg hlf]⟩
    | none =>
      cases he : matchExportLine l with
      | some q =>
        obtain ⟨u2, h2, ts, cmd⟩ := q
        cases hq : parseTs ts with
        | none => exact ⟨.badTimestamp, by simp only [addLines, hp, he, hq]⟩
        | some dt =>
          have hbad' : ∃ l' ∈ ls, badTsLine l' := by
            obtain ⟨l', hl', hb⟩ := hbad
            cases hl' with
            | head =>
              cases hb with
              | inl hb1 =>
                obtain ⟨ts', cmd', hm, hn⟩ := hb1
                exact absurd hm (by rw [hp]; simp)
              | inr hb2 =>
                obtain ⟨u', h', ts', cmd', hm, hn⟩ := hb2.2
                rw [he] at hm
                simp only [Option.some.injEq, Prod.mk.injEq] at hm
                exact absurd hn (by rw [← hm.2.2.1, hq]; simp)
            | tail _ hmem => exact ⟨l', hmem, hb⟩
          obtain ⟨e, hee⟩ := ih 3 (insert1 t ⟨u2.asString, h2.asString, cmd.asString, dt⟩)
            (if keyPresent t ⟨u2.asString, h2.asString, cmd.asString, dt⟩ then f + 1 else f) hbad'
          exact ⟨e, by simp only [addLines, hp, he, hq]; exact hee⟩
      | none =>
        have hbad' : ∃ l' ∈ ls, badTsLine l' := by
          obtain ⟨l', hl', hb⟩ := hbad
          cases hl' with
          | head =>
            cases hb with
            | inl hb1 => obtain ⟨ts', cmd', hm, _⟩ := hb1; exact absurd hm (by rw [hp]; simp)
            | inr hb2 =>
              obtain ⟨u', h', ts', cmd', hm, _⟩ := hb2.2
              exact absurd hm (by rw [he]; simp)
          | tail _ hmem => exact ⟨l', hmem, hb⟩
        obtain ⟨e, hee⟩ := ih lf t (f + 1) hbad'
        exact ⟨e, by simp only [addLines, hp, he]; exact hee⟩

/-- Claim C4: if some line of the batch matches a shape but its captured
timestamp fails to parse, the whole ingestion aborts with an error and
nothing is committed: the table is exactly the initial one. -/
theorem addFromBuffer_bad_timestamp_atomic (input : List Char) (user host : String) (t : Table)
    (hbad : ∃ l ∈ completeLines input, badTsLine l) :
    (∃ e, (addFromBufferRun input user host t).1 = .error e) ∧
      (addFromBufferRun input user host t).2 = t := by
  obtain ⟨e, he⟩ := addLines_error_of_badTs user host (completeLines input) 1 t 0 hbad
  have h1 : addFromBufferRun input user host t = (.error e, t) := by
    simp only [addFromBufferRun, he]
  rw [h1]
  exact ⟨⟨e, rfl⟩, rfl⟩

/-- Witness for C4: a batch whose first line matches shape 1 with a
digits-only timestamp group that fails to parse, after a valid line. -/
theorem addFromBuffer_bad_timestamp_atomic_witness :
    (∃ e, (addFromBufferRun "2 2020-01-01T00:00:00+0000 ok\n1 000000000000000000000000 ls\n".toList
        "u" "h" []).1 = .error e) ∧
      (addFromBufferRun "2 2020-01-01T00:00:00+0000 ok\n1 000000000000000000000000 ls\n".toList
        "u" "h" []).2 = [] :=
  addFromBuffer_bad_timestamp_atomic _ "u" "h" []
    ⟨"1 000000000000000000000000 ls".toList, by decide,
      Or.inl ⟨"000000000000000000000000".toList, "ls".toList, by decide, by decide⟩⟩

/-! ## Claim C10: host is not part of the uniqueness key -/

/-- Claim C10: ingesting a line whose (user, command, timestamp) equals a
stored record's key but whose host differs is absorbed as a duplicate:
the call succeeds, the line is counted as the one failed entry, and the
table — in particular the stored record and its host field — is entirely
unchanged; the incoming host is discarded. -/
theorem ingest_same_key_different_host_noop
    (l u2 h2 ts cmd : List Char) (user host : String) (dt : Int) (t : Table) (r : HistRecord)
    (hp : matchParseLine l = none)
    (he : matchExportLine l = some (u2, h2, ts, cmd))
    (hts : parseTs ts = some dt)
    (hnl : '\n' ∉ l)
    (hr : r ∈ t) (hu : r.user = u2.asString) (hc : r.command = cmd.asString)
    (hd : r.datetime = dt) (hh : r.host ≠ h2.asString) :
    addFromBufferRun (l ++ ['\n']) user host t = (.ok ⟨1, 0, 1⟩, t) := by
  have hkey : keyPresent t ⟨u2.asString, h2.asString, cmd.asString, dt⟩ = true :=
    keyPresent_of_mem t r _ hr hu hc hd
  have hsplit : completeLines (l ++ ['\n']) = [l] := completeLines_single l hnl
  have hstep : addLines user host [l] 1 t 0 = .ok (t, 1) := by
    simp only [addLines, hp, he, hts, hkey]
    have hins : insert1 t ⟨u2.asString, h2.asString, cmd.asString, dt⟩ = t := by
      unfold insert1; rw [if_pos hkey]
    simp [hins]
  simp only [addFromBufferRun, hsplit, hstep]
  rfl

/-- Witness for C10: the stored record has host "host1"; the incoming
identical (user, command, timestamp) line carries host "host2". -/
theorem ingest_same_key_different_host_noop_witness :
    addFromBufferRun ("user1 host2 2015-10-12T12:00:00+0000 ls".toList ++ ['\n']) "u" "h"
        [⟨"user1", "host1", "ls", 1444651200⟩] =
      (.ok ⟨1, 0, 1⟩, [⟨"user1", "host1", "ls", 1444651200⟩]) :=
  ingest_same_key_different_host_noop
    "user1 host2 2015-10-12T12:00:00+0000 ls".toList
    "user1".toList "host2".toList "2015-10-12T12:00:00+0000".toList "ls".toList
    "u" "h" 1444651200 [⟨"user1", "host1", "ls", 1444651200⟩] ⟨"user1", "host1", "ls", 1444651200⟩
    (by decide) (by decide) (by decide) (by decide) (by decide) (by decide) (by decide)
    (by decide) (by decide)

/-! ## Lemmas on the GROUP BY representative (shared by C5 and C6) -/

theorem sortAsc_perm (l : List (Nat × HistRecord)) : (sortAsc l).Perm l :=
  List.perm_insertionSort byDtAsc l

theorem sortDesc_perm (l : List (Nat × HistRecord)) : (sortDesc l).Perm l :=
  List.perm_insertionSort byDtDesc l

theorem sortAsc_sorted (l : List (Nat × HistRecord)) : (sortAsc l).Sorted byDtAsc :=
  List.sorted_insertionSort byDtAsc l

theorem mem_of_getLast?_eq {α : Type} : ∀ (l : List α) (x : α), l.getLast? = some x → x ∈ l
  | [], _, h => by cases h
  | [a], x, h => by
    simp only [List.getLast?_singleton, Option.some.injEq] at h
    exact h ▸ List.mem_singleton_self a
  | a :: b :: l, x, h => by
    rw [List.getLast?_cons_cons] at h
    exact List.mem_cons_of_mem a (mem_of_getLast?_eq (b :: l) x h)

/-- In a list with strictly increasing first components, the last element
has the largest first component. -/
theorem getLast?_max : ∀ (l : List (Nat × HistRecord)),
    l.Pairwise (fun a b => a.1 < b.1) →
    ∀ x : Nat × HistRecord, l.getLast? = some x → ∀ y ∈ l, y.1 ≤ x.1
  | [], _, _, h => by cases h
  | [a], _, x, h => by
    simp only [List.getLast?_singleton, Option.some.injEq] at h
    intro y hy
    rw [List.mem_singleton] at hy
    subst hy; subst h; exact le_refl _
  | a :: b :: l, hp, x, h => by
    rw [List.getLast?_cons_cons] at h
    intro y hy
    cases hy with
    | head =>
      have hx : x ∈ b :: l := mem_of_getLast?_eq _ _ h
      exact le_of_lt ((List.pairwise_cons.mp hp).1 x hx)
    | tail _ hy' => exact getLast?_max (b :: l) (List.Pairwise.of_cons hp) x h y hy'

theorem lastWithCommand_mem (rows : List (Nat × HistRecord)) (c : String) (r : Nat × HistRecord)
    (h : lastWithCommand rows c = some r) : r ∈ rows ∧ r.2.command = c := by
  unfold lastWithCommand at h
  have hm := mem_of_getLast?_eq _ _ h
  refine ⟨(List.mem_filter.mp hm).1, ?_⟩
  have := (List.mem_filter.mp hm).2
  simpa using this

theorem lastWithCommand_some (rows : List (Nat × HistRecord)) (c : String)
    (h : c ∈ rows.map fun x => x.2.command) :
    ∃ r, lastWithCommand rows c = some r := by
  obtain ⟨x, hx, hxc⟩ := List.mem_map.mp h
  have hmemf : x ∈ rows.filter fun z => z.2.command == c :=
    List.mem_filter.mpr ⟨hx, by simp [hxc]⟩
  cases hfil : rows.filter fun z => z.2.command == c with
  | nil => rw [hfil] at hmemf; cases hmemf
  | cons a l =>
    refine ⟨(a :: l).getLast (List.cons_ne_nil a l), ?_⟩
    unfold lastWithCommand
    rw [hfil]
    exact List.getLast?_eq_getLast _ _

theorem lastWithCommand_isLast (rows : List (Nat × HistRecord)) (c : String)
    (r : Nat × HistRecord) (hpw : rows.Pairwise fun a b => a.1 < b.1)
    (h : lastWithCommand rows c = some r) :
    ∀ y ∈ rows, y.2.command = c → y.1 ≤ r.1 := by
  intro y hy hyc
  have hyf : y ∈ rows.filter fun z => z.2.command == c :=
    List.mem_filter.mpr ⟨hy, by simp [hyc]⟩
  exact getLast?_max _ (hpw.filter _) r h y hyf

theorem tableRowsFrom_mem_le (t : Table) :
    ∀ (j : Nat) (x : Nat × HistRecord), x ∈ tableRowsFrom j t → j ≤ x.1 := by
  induction t with
  | nil => intro j x h; cases h
  | cons r rs ih =>
    intro j x h
    cases h with
    | head => exact le_refl _
    | tail _ h' => have := ih (j + 1) x h'; omega

/-- Rowids are strictly increasing in scan order. -/
theorem tableRowsFrom_pairwise (t : Table) :
    ∀ j, (tableRowsFrom j t).Pairwise fun a b => a.1 < b.1 := by
  induction t with
  | nil => intro _; exact List.Pairwise.nil
  | cons r rs ih =>
    intro j
    refine List.pairwise_cons.mpr ⟨?_, ih (j + 1)⟩
    intro y hy
    have := tableRowsFrom_mem_le rs (j + 1) y hy
    show j < y.1
    omega

theorem filteredRows_pairwise (pU pH pC : String) (t : Table) :
    (filteredRows pU pH pC t).Pairwise fun a b => a.1 < b.1 :=
  (tableRowsFrom_pairwise t 1).filter _

theorem filterMap_lastWith_commands (rows : List (Nat × HistRecord)) :
    ∀ cs : List String, (∀ c ∈ cs, c ∈ rows.map fun x => x.2.command) →
      ((cs.filterMap (lastWithCommand rows)).map fun x => x.2.command) = cs := by
  intro cs
  induction cs with
  | nil => intro _; rfl
  | cons c cs' ih =>
    intro h
    obtain ⟨r, hr⟩ := lastWithCommand_some rows c (h c (List.mem_cons_self c cs'))
    have hrc := (lastWithCommand_mem rows c r hr).2
    have hstep : List.filterMap (lastWithCommand rows) (c :: cs') =
        r :: List.filterMap (lastWithCommand rows) cs' := by
      simp [List.filterMap_cons, hr]
    rw [hstep, List.map_cons, hrc, ih fun c' hc' => h c' (List.mem_cons_of_mem _ hc')]

/-- The three grouping guarantees of `GROUP BY command` with bare
columns: one output row per distinct command, each output row is the
last row of its group in scan order, and every input row's command is
represented. -/
theorem groupReps_spec (rows : List (Nat × HistRecord))
    (hpw : rows.Pairwise fun a b => a.1 < b.1) :
    ((groupReps rows).map fun x => x.2.command) = (rows.map fun x => x.2.command).dedup ∧
    (∀ x ∈ groupReps rows, x ∈ rows ∧ ∀ y ∈ rows, y.2.command = x.2.command → y.1 ≤ x.1) ∧
    (∀ y ∈ rows, ∃ x ∈ groupReps rows, x.2.command = y.2.command) := by
  refine ⟨?_, ?_, ?_⟩
  · exact filterMap_lastWith_commands rows _ fun c hc => List.mem_dedup.mp hc
  · intro x hx
    obtain ⟨c, _, hlast⟩ := List.mem_filterMap.mp hx
    obtain ⟨hmem, hcmd⟩ := lastWithCommand_mem rows c x hlast
    refine ⟨hmem, fun y hy hyc => ?_⟩
    exact lastWithCommand_isLast rows c x hpw hlast y hy (hcmd ▸ hyc)
  · intro y hy
    have hc : y.2.command ∈ (rows.map fun x => x.2.command).dedup :=
      List.mem_dedup.mpr (List.mem_map.mpr ⟨y, hy, rfl⟩)
    obtain ⟨r, hr⟩ := lastWithCommand_some rows y.2.command (List.mem_dedup.mp hc)
    exact ⟨r, List.mem_filterMap.mpr ⟨y.2.command, hc, hr⟩,
      (lastWithCommand_mem rows y.2.command r hr).2⟩

/-! ## Claim C5: DefaultQuery with unique=true -/

/-- Claim C5 (counterexample): on a store holding two "ls" rows at
timestamps 0 and 100, the unique default query does not return the
earliest-by-timestamp row (rowid 1): it keeps the group's last scanned
row (rowid 2, the latest instance — exactly what the repository's own
test expects), and moreover the SELECT column order of the unique branch
does not match the Scan destinations, so the returned fields are
permuted (the user field carries the timestamp string, host carries the
user, command carries the host, and the timestamp is Go's zero time). -/
theorem defaultQuery_unique_not_earliest :
    defaultQueryRows "%" "%" "%" true c5tbl =
      [⟨2, "1970-01-01T00:01:40Z", "u1", "h1", -62135596800⟩] ∧
    filteredRows "%" "%" "%" c5tbl = [(1, ⟨"u1", "h1", "ls", 0⟩), (2, ⟨"u1", "h1", "ls", 100⟩)] ∧
    defaultQueryRows "%" "%" "%" true c5tbl ≠ [⟨1, "u1", "h1", "ls", 0⟩] := by
  decide

/-- Claim C5 (amended): the unique default query emits exactly one result
row per distinct command text among the filtered rows; the group
representative is the last row of the group in scan order (the most
recently inserted — "latest command instance" in the repository's test),
the groups are ordered by ascending timestamp, and each emitted row is
the representative's fields permuted by the Scan column mismatch
(`scanMangledUnique`). -/
theorem defaultQuery_unique_amended (pU pH pC : String) (t : Table) :
    defaultQueryRows pU pH pC true t =
      (sortAsc (groupReps (filteredRows pU pH pC t))).map scanMangledUnique ∧
    ((groupReps (filteredRows pU pH pC t)).map fun x => x.2.command).Nodup ∧
    (∀ x ∈ groupReps (filteredRows pU pH pC t),
      x ∈ filteredRows pU pH pC t ∧
        ∀ y ∈ filteredRows pU pH pC t, y.2.command = x.2.command → y.1 ≤ x.1) ∧
    (∀ y ∈ filteredRows pU pH pC t, ∃ x ∈ groupReps (filteredRows pU pH pC t),
      x.2.command = y.2.command) ∧
    (sortAsc (groupReps (filteredRows pU pH pC t))).Sorted byDtAsc := by
  obtain ⟨h1, h2, h3⟩ := groupReps_spec _ (filteredRows_pairwise pU pH pC t)
  exact ⟨rfl, h1 ▸ List.nodup_dedup _, h2, h3, sortAsc_sorted _⟩

/-! ## Claim C6: LastK with unique=true -/

/-- Claim C6 (counterexample): on a store where the later-inserted "ls"
row has the older timestamp (100 then 50 in scan order), LastK with
unique=true keeps the last-scanned row (rowid 2, timestamp 50), not the
most recent occurrence (rowid 1, timestamp 100). -/
theorem lastK_unique_not_most_recent :
    lastKRows "%" "%" "%" true 1 c6tbl = [⟨2, "u1", "h1", "ls", 50⟩] ∧
    (1, (⟨"u1", "h1", "ls", 100⟩ : HistRecord)) ∈ filteredRows "%" "%" "%" c6tbl ∧
    lastKRows "%" "%" "%" true 1 c6tbl ≠ [⟨1, "u1", "h1", "ls", 100⟩] := by
  decide

/-- Claim C6 (amended): for every filter and every nonnegative kappa,
LastK with unique=true returns at most kappa rows, one per distinct
command text, ordered by ascending timestamp; the row kept for each
command is the last row of its group in the store's scan order (the most
recently inserted, which is the most recent occurrence whenever
insertion order follows timestamp order). -/
theorem lastK_unique_amended (pU pH pC : String) (k : Int) (t : Table) (hk : 0 ≤ k) :
    (lastKRows pU pH pC true k t).length ≤ k.toNat ∧
    ((lastKRows pU pH pC true k t).map ScanRow.command).Nodup ∧
    (lastKRows pU pH pC true k t).Pairwise (fun a b => a.t ≤ b.t) ∧
    (∀ o ∈ lastKRows pU pH pC true k t, ∃ x ∈ filteredRows pU pH pC t,
      scanStraight x = o ∧
        ∀ y ∈ filteredRows pU pH pC t, y.2.command = x.2.command → y.1 ≤ x.1) := by
  obtain ⟨h1, h2, _⟩ := groupReps_spec _ (filteredRows_pairwise pU pH pC t)
  have hlim : applyLimit k (sortDesc (groupReps (filteredRows pU pH pC t))) =
      (sortDesc (groupReps (filteredRows pU pH pC t))).take k.toNat := by
    unfold applyLimit
    rw [if_neg (not_lt.mpr hk)]
  have hlk : lastKRows pU pH pC true k t =
      (sortAsc ((sortDesc (groupReps (filteredRows pU pH pC t))).take k.toNat)).map
        scanStraight := by
    show (sortAsc (applyLimit k (sortDesc (groupReps (filteredRows pU pH pC t))))).map
        scanStraight = _
    rw [hlim]
  refine ⟨?_, ?_, ?_, ?_⟩
  · rw [hlk, List.length_map, (sortAsc_perm _).length_eq, List.length_take]
    exact min_le_left _ _
  · rw [hlk, List.map_map]
    have hcomp : (ScanRow.command ∘ scanStraight) = fun x : Nat × HistRecord => x.2.command :=
      rfl
    rw [hcomp]
    have hperm1 : (sortAsc ((sortDesc (groupReps (filteredRows pU pH pC t))).take
        k.toNat)).map (fun x : Nat × HistRecord => x.2.command) |>.Perm
        (((sortDesc (groupReps (filteredRows pU pH pC t))).take k.toNat).map
          fun x : Nat × HistRecord => x.2.command) :=
      (sortAsc_perm _).map _
    rw [hperm1.nodup_iff]
    have hsub : ((sortDesc (groupReps (filteredRows pU pH pC t))).take k.toNat).map
        (fun x : Nat × HistRecord => x.2.command) |>.Sublist
        ((sortDesc (groupReps (filteredRows pU pH pC t))).map
          fun x : Nat × HistRecord => x.2.command) :=
      (List.take_sublist _ _).map _
    refine hsub.nodup ?_
    have hperm2 : ((sortDesc (groupReps (filteredRows pU pH pC t))).map
        fun x : Nat × HistRecord => x.2.command).Perm
        ((groupReps (filteredRows pU pH pC t)).map fun x : Nat × HistRecord => x.2.command) :=
      (sortDesc_perm _).map _
    rw [hperm2.nodup_iff]
    exact h1 ▸ List.nodup_dedup _
  · rw [hlk]
    rw [List.pairwise_map]
    exact sortAsc_sorted _
  · intro o ho
    rw [hlk] at ho
    obtain ⟨x, hx, hxo⟩ := List.mem_map.mp ho
    have hx1 : x ∈ (sortDesc (groupReps (filteredRows pU pH pC t))).take k.toNat :=
      ((sortAsc_perm _).mem_iff).mp hx
    have hx2 : x ∈ sortDesc (groupReps (filteredRows pU pH pC t)) :=
      List.take_subset _ _ hx1
    have hx3 : x ∈ groupReps (filteredRows pU pH pC t) :=
      ((sortDesc_perm _).mem_iff).mp hx2
    obtain ⟨hmem, hlast⟩ := h2 x hx3
    exact ⟨x, hmem, hxo, hlast⟩

/-- Witness for C6 (amended) at kappa = 2 on the two-row store. -/
theorem lastK_unique_amended_witness :
    (lastKRows "%" "%" "%" true 2 c6tbl).length ≤ (2 : Int).toNat ∧
    ((lastKRows "%" "%" "%" true 2 c6tbl).map ScanRow.command).Nodup ∧
    (lastKRows "%" "%" "%" true 2 c6tbl).Pairwise (fun a b => a.t ≤ b.t) ∧
    (∀ o ∈ lastKRows "%" "%" "%" true 2 c6tbl, ∃ x ∈ filteredRows "%" "%" "%" c6tbl,
      scanStraight x = o ∧
        ∀ y ∈ filteredRows "%" "%" "%" c6tbl, y.2.command = x.2.command → y.1 ≤ x.1) :=
  lastK_unique_amended "%" "%" "%" 2 c6tbl (by decide)

/-! ## Claim C1: content-window merging (modelled from the spec) -/

/-- Invariants of the backward merge pass on intervals: given intervals
with sound bounds whose endpoints are componentwise nondecreasing (as
produced from an ascending match list), the merged intervals have sound
bounds, are strictly separated, cover every input interval, and the
first output interval starts where the first input interval starts. -/
theorem mergeIvs_spec : ∀ L : List (Nat × Nat),
    (∀ p ∈ L, p.1 ≤ p.2) →
    L.Chain' (fun u v => u.1 ≤ v.1 ∧ u.2 ≤ v.2) →
    (∀ p ∈ mergeIvs L, p.1 ≤ p.2) ∧
    (mergeIvs L).Pairwise (fun u v => u.2 < v.1) ∧
    (∀ p ∈ L, ∃ q ∈ mergeIvs L, q.1 ≤ p.1 ∧ p.2 ≤ q.2) ∧
    (∀ x tl, L = x :: tl → ∃ hi2 r, mergeIvs L = (x.1, hi2) :: r ∧ x.2 ≤ hi2) := by
  intro L
  induction L with
  | nil =>
    intro _ _
    refine ⟨by simp [mergeIvs], by simp [mergeIvs], by simp, ?_⟩
    intro x tl h
    cases h
  | cons x rest ih =>
    intro hb hc
    have hbx : x.1 ≤ x.2 := hb x (List.mem_cons_self x rest)
    have hbrest : ∀ p ∈ rest, p.1 ≤ p.2 := fun p hp => hb p (List.mem_cons_of_mem _ hp)
    obtain ⟨ihb, ihsep, ihcont, ihhead⟩ := ih hbrest hc.tail
    cases hrest : rest with
    | nil =>
      subst hrest
      have hm : mergeIvs [x] = [x] := rfl
      refine ⟨?_, ?_, ?_, ?_⟩
      · rw [hm]; intro p hp; rw [List.mem_singleton] at hp; subst hp; exact hbx
      · rw [hm]; exact List.pairwise_singleton _ _
      · intro p hp
        rw [List.mem_singleton] at hp; subst hp
        exact ⟨p, by rw [hm]; exact List.mem_singleton_self p, le_refl _, le_refl _⟩
      · intro y tl h
        obtain ⟨h1, h2⟩ := List.cons.injEq .. ▸ h
        subst h1; subst h2
        exact ⟨x.2, [], by rw [hm], le_refl _⟩
    | cons z tl' =>
      subst hrest
      obtain ⟨h2, r', hmr, hzh2⟩ := ihhead z tl' rfl
      have hxz : (x.1 ≤ z.1 ∧ x.2 ≤ z.2) := (List.chain'_cons.mp hc).1
      have hzbound : z.1 ≤ h2 :=
        ihb (z.1, h2) (by rw [hmr]; exact List.mem_cons_self _ _)
      have ihsep' : ((z.1, h2) :: r').Pairwise (fun u v => u.2 < v.1) := hmr ▸ ihsep
      by_cases hov : z.1 ≤ x.2
      · -- the next window's first identifier lies inside this window: merge
        have hm : mergeIvs (x :: z :: tl') = (x.1, h2) :: r' := by
          show (match mergeIvs (z :: tl') with
            | [] => [x]
            | y :: r => if y.1 ≤ x.2 then (x.1, y.2) :: r else x :: y :: r) = _
          rw [hmr]
          simp [hov]
        refine ⟨?_, ?_, ?_, ?_⟩
        · rw [hm]
          intro p hp
          cases hp with
          | head => exact le_trans hbx (le_trans hxz.2 hzh2)
          | tail _ hp' => exact ihb p (by rw [hmr]; exact List.mem_cons_of_mem _ hp')
        · rw [hm]
          refine List.pairwise_cons.mpr ⟨?_, (List.pairwise_cons.mp ihsep').2⟩
          intro w hw
          exact (List.pairwise_cons.mp ihsep').1 w hw
        · intro p hp
          cases hp with
          | head =>
            exact ⟨(x.1, h2), by rw [hm]; exact List.mem_cons_self _ _,
              le_refl _, le_trans hxz.2 hzh2⟩
          | tail _ hp' =>
            obtain ⟨q, hq, hq1, hq2⟩ := ihcont p hp'
            rw [hmr] at hq
            cases hq with
            | head =>
              exact ⟨(x.1, h2), by rw [hm]; exact List.mem_cons_self _ _,
                le_trans hxz.1 hq1, hq2⟩
            | tail _ hq' =>
              exact ⟨q, by rw [hm]; exact List.mem_cons_of_mem _ hq', hq1, hq2⟩
        · intro y tl h
          obtain ⟨h1', h2'⟩ := List.cons.injEq .. ▸ h
          subst h1'
          exact ⟨h2, r', by rw [hm], le_trans hxz.2 hzh2⟩
      · -- disjoint: this window stays separate
        have hlt : x.2 < z.1 := Nat.lt_of_not_le hov
        have hm : mergeIvs (x :: z :: tl') = x :: (z.1, h2) :: r' := by
          show (match mergeIvs (z :: tl') with
            | [] => [x]
            | y :: r => if y.1 ≤ x.2 then (x.1, y.2) :: r else x :: y :: r) = _
          rw [hmr]
          simp [hov]
        refine ⟨?_, ?_, ?_, ?_⟩
        · rw [hm]
          intro p hp
          cases hp with
          | head => exact hbx
          | tail _ hp' => exact ihb p (hmr ▸ hp')
        · rw [hm]
          refine List.pairwise_cons.mpr ⟨?_, ihsep'⟩
          intro w hw
          cases hw with
          | head => exact hlt
          | tail _ hw' =>
            have hsep := (List.pairwise_cons.mp ihsep').1 w hw'
            show x.2 < w.1
            omega
        · intro p hp
          cases hp with
          | head =>
            exact ⟨x, by rw [hm]; exact List.mem_cons_self _ _, le_refl _, le_refl _⟩
          | tail _ hp' =>
            obtain ⟨q, hq, hq1, hq2⟩ := ihcont p hp'
            rw [hmr] at hq
            exact ⟨q, by rw [hm]; exact List.mem_cons_of_mem _ hq, hq1, hq2⟩
        · intro y tl h
          obtain ⟨h1', h2'⟩ := List.cons.injEq .. ▸ h
          subst h1'
          exact ⟨x.2, (z.1, h2) :: r', by rw [hm], le_refl _⟩

theorem iv_eq_cons (p : Nat × Nat) (h : p.1 ≤ p.2) :
    iv p = p.1 :: List.range' (p.1 + 1) (p.2 - p.1) := by
  unfold iv
  rw [show p.2 + 1 - p.1 = (p.2 - p.1) + 1 by omega, List.range'_succ]

theorem mem_iv {p : Nat × Nat} {m : Nat} (h : p.1 ≤ p.2) : m ∈ iv p ↔ p.1 ≤ m ∧ m ≤ p.2 := by
  unfold iv
  rw [List.mem_range'_1]
  omega

theorem iv_subset {p q : Nat × Nat} (h1 : q.1 ≤ p.1) (h2 : p.2 ≤ q.2) : iv p ⊆ iv q := by
  intro m hm
  unfold iv at *
  rw [List.mem_range'_1] at *
  omega

theorem indexOf_range' : ∀ (n s b : Nat), s ≤ b → b < s + n →
    (List.range' s n).indexOf b = b - s := by
  intro n
  induction n with
  | zero => intro s b h1 h2; omega
  | succ n ih =>
    intro s b h1 h2
    rw [List.range'_succ, List.indexOf_cons]
    by_cases hb : s = b
    · subst hb; simp
    · rw [show (s == b) = false by simp [hb], cond_false, ih (s + 1) b (by omega) (by omega)]
      omega

theorem take_range' : ∀ (n m s : Nat), (List.range' s n).take m = List.range' s (min m n) := by
  intro n
  induction n with
  | zero => intro m s; simp
  | succ n ih =>
    intro m s
    cases m with
    | zero => simp
    | succ m' =>
      rw [List.range'_succ, List.take_succ_cons, ih m' (s + 1),
        show min (m' + 1) (n + 1) = min m' n + 1 by omega, List.range'_succ]

/-- The spec's window merge on the concrete row-identifier lists agrees
with interval merging, for windows coming from an ascending match list. -/
theorem mergeWindows_map_iv : ∀ L : List (Nat × Nat),
    (∀ p ∈ L, p.1 ≤ p.2) →
    L.Chain' (fun u v => u.1 ≤ v.1 ∧ u.2 ≤ v.2) →
    mergeWindows (L.map iv) = (mergeIvs L).map iv := by
  intro L
  induction L with
  | nil => intro _ _; rfl
  | cons x rest ih =>
    intro hb hc
    have hbx : x.1 ≤ x.2 := hb x (List.mem_cons_self x rest)
    have hbrest : ∀ p ∈ rest, p.1 ≤ p.2 := fun p hp => hb p (List.mem_cons_of_mem _ hp)
    have ihe := ih hbrest hc.tail
    cases hrest : rest with
    | nil => subst hrest; rfl
    | cons z tl' =>
      subst hrest
      obtain ⟨ihb, _, _, ihhead⟩ := mergeIvs_spec (z :: tl') hbrest hc.tail
      obtain ⟨h2, r', hmr, hzh2⟩ := ihhead z tl' rfl
      have hxz : (x.1 ≤ z.1 ∧ x.2 ≤ z.2) := (List.chain'_cons.mp hc).1
      have hzbound : z.1 ≤ h2 :=
        ihb (z.1, h2) (by rw [hmr]; exact List.mem_cons_self _ _)
      have hmw : mergeWindows ((z :: tl').map iv) = iv (z.1, h2) :: r'.map iv := by
        rw [ihe, hmr, List.map_cons]
      have hivz : iv (z.1, h2) = z.1 :: List.range' (z.1 + 1) (h2 - z.1) :=
        iv_eq_cons (z.1, h2) hzbound
      by_cases hov : z.1 ≤ x.2
      · have hmem : z.1 ∈ iv x := (mem_iv hbx).mpr ⟨hxz.1, hov⟩
        have hstep : mergeStep (iv x) (iv (z.1, h2)) = some (iv (x.1, h2)) := by
          rw [hivz]
          show (if z.1 ∈ iv x then
              some ((iv x).take ((iv x).indexOf z.1) ++ (z.1 :: List.range' (z.1 + 1) (h2 - z.1)))
            else none) = _
          rw [if_pos hmem, ← hivz]
          congr 1
          have hidx : (iv x).indexOf z.1 = z.1 - x.1 := by
            unfold iv
            exact indexOf_range' _ _ _ hxz.1 (by omega)
          rw [hidx]
          unfold iv
          rw [take_range', show min (z.1 - x.1) (x.2 + 1 - x.1) = z.1 - x.1 by omega]
          rw [show List.range' z.1 (h2 + 1 - z.1) =
            List.range' (x.1 + (z.1 - x.1)) (h2 + 1 - z.1) by
              rw [show x.1 + (z.1 - x.1) = z.1 by omega]]
          rw [List.range'_append_1]
          show List.range' x.1 (h2 + 1 - z.1 + (z.1 - x.1)) = List.range' x.1 (h2 + 1 - x.1)
          congr 1
          omega
        have hmI : mergeIvs (x :: z :: tl') = (x.1, h2) :: r' := by
          show (match mergeIvs (z :: tl') with
            | [] => [x]
            | y :: r => if y.1 ≤ x.2 then (x.1, y.2) :: r else x :: y :: r) = _
          rw [hmr]
          simp [hov]
        show (match mergeWindows ((z :: tl').map iv) with
          | [] => [iv x]
          | w' :: r =>
            match mergeStep (iv x) w' with
            | some mw => mw :: r
            | none => iv x :: w' :: r) = _
        rw [hmw, hmI]
        simp [hstep]
      · have hmem : z.1 ∉ iv x := by
          rw [mem_iv hbx]
          omega
        have hstep : mergeStep (iv x) (iv (z.1, h2)) = none := by
          rw [hivz]
          show (if z.1 ∈ iv x then
              some ((iv x).take ((iv x).indexOf z.1) ++ (z.1 :: List.range' (z.1 + 1) (h2 - z.1)))
            else none) = _
          rw [if_neg hmem]
        have hmI : mergeIvs (x :: z :: tl') = x :: (z.1, h2) :: r' := by
          show (match mergeIvs (z :: tl') with
            | [] => [x]
            | y :: r => if y.1 ≤ x.2 then (x.1, y.2) :: r else x :: y :: r) = _
          rw [hmr]
          simp [hov]
        show (match mergeWindows ((z :: tl').map iv) with
          | [] => [iv x]
          | w' :: r =>
            match mergeStep (iv x) w' with
            | some mw => mw :: r
            | none => iv x :: w' :: r) = _
        rw [hmw, hmI]
        simp [hstep]

/-- Strictly separated sound intervals have pairwise disjoint, duplicate
free row-identifier lists. -/
theorem flatten_iv_nodup : ∀ M : List (Nat × Nat),
    (∀ p ∈ M, p.1 ≤ p.2) → M.Pairwise (fun u v => u.2 < v.1) →
    ((M.map iv).flatten).Nodup := by
  intro M
  induction M with
  | nil => intro _ _; simp
  | cons p M' ih =>
    intro hb hsep
    simp only [List.map_cons, List.flatten_cons]
    refine List.Nodup.append ?_
      (ih (fun q hq => hb q (List.mem_cons_of_mem _ hq)) hsep.of_cons) ?_
    · unfold iv; exact List.nodup_range' _ _
    · rw [List.disjoint_left]
      intro a ha haf
      obtain ⟨l, hl, hal⟩ := List.mem_flatten.mp haf
      obtain ⟨q, hq, rfl⟩ := List.mem_map.mp hl
      have h1 : a ≤ p.2 := by unfold iv at ha; rw [List.mem_range'_1] at ha; omega
      have h2 : q.1 ≤ a := by unfold iv at hal; rw [List.mem_range'_1] at hal; omega
      have h3 : p.2 < q.1 := (List.pairwise_cons.mp hsep).1 q hq
      omega

/-- In a duplicate-free flattening, a common element pins down the list. -/
theorem mem_flatten_unique {α : Type} : ∀ M : List (List α), M.flatten.Nodup →
    ∀ l1 l2 : List α, l1 ∈ M → l2 ∈ M → ∀ x, x ∈ l1 → x ∈ l2 → l1 = l2 := by
  intro M
  induction M with
  | nil => intro _ l1 l2 h1; cases h1
  | cons a M' ih =>
    intro hnd l1 l2 h1 h2 x hx1 hx2
    rw [List.flatten_cons] at hnd
    obtain ⟨_, hM', hdisj⟩ := List.nodup_append.mp hnd
    cases h1 with
    | head =>
      cases h2 with
      | head => rfl
      | tail _ h2' => exact absurd (List.mem_flatten.mpr ⟨l2, h2', hx2⟩) (hdisj hx1)
    | tail _ h1' =>
      cases h2 with
      | head => exact absurd (List.mem_flatten.mpr ⟨l1, h1', hx1⟩) (hdisj hx2)
      | tail _ h2' => exact ih hM' l1 l2 h1' h2' x hx1 hx2

/-- Claim C1 (spec-modelled): for every scope, window radius and
strictly ascending match list, any two matches whose context windows
share a row identifier are rendered inside one and the same merged
block, and the shared row identifier occurs exactly once in the whole
output. -/
theorem contentWindow_overlap_one_block (n before after : Nat) (ms : List Nat)
    (hsorted : ms.Chain' (· < ·)) (hn : ∀ m ∈ ms, m < n)
    (mi mj x : Nat) (hmi : mi ∈ ms) (hmj : mj ∈ ms)
    (hxi : x ∈ window n before after mi) (hxj : x ∈ window n before after mj) :
    (∃ b ∈ contentBlocks n before after ms,
      window n before after mi ⊆ b ∧ window n before after mj ⊆ b) ∧
    (contentBlocks n before after ms).flatten.count x = 1 := by
  have hbL : ∀ p ∈ ms.map (ivOf n before after), p.1 ≤ p.2 := by
    intro p hp
    obtain ⟨m, hm, rfl⟩ := List.mem_map.mp hp
    have := hn m hm
    unfold ivOf
    simp only
    omega
  have hcL : (ms.map (ivOf n before after)).Chain' fun u v => u.1 ≤ v.1 ∧ u.2 ≤ v.2 := by
    rw [List.chain'_map]
    refine hsorted.imp ?_
    intro a b hab
    unfold ivOf
    exact ⟨by omega, by omega⟩
  obtain ⟨hob, hosep, hocont, _⟩ := mergeIvs_spec (ms.map (ivOf n before after)) hbL hcL
  have hwin : ∀ m : Nat, window n before after m = iv (ivOf n before after m) := fun _ => rfl
  have hblocks : contentBlocks n before after ms =
      (mergeIvs (ms.map (ivOf n before after))).map iv := by
    show mergeWindows (ms.map (window n before after)) = _
    rw [show ms.map (window n before after) = (ms.map (ivOf n before after)).map iv by
      rw [List.map_map]; rfl]
    exact mergeWindows_map_iv _ hbL hcL
  have hnodup : ((mergeIvs (ms.map (ivOf n before after))).map iv).flatten.Nodup :=
    flatten_iv_nodup _ hob hosep
  have hcont : ∀ m ∈ ms, ∃ q ∈ mergeIvs (ms.map (ivOf n before after)),
      window n before after m ⊆ iv q := by
    intro m hm
    obtain ⟨q, hq, hq1, hq2⟩ := hocont (ivOf n before after m) (List.mem_map_of_mem _ hm)
    exact ⟨q, hq, by rw [hwin m]; exact iv_subset hq1 hq2⟩
  obtain ⟨qi, hqi, hsubi⟩ := hcont mi hmi
  obtain ⟨qj, hqj, hsubj⟩ := hcont mj hmj
  have hxqi : x ∈ iv qi := hsubi hxi
  have hxqj : x ∈ iv qj := hsubj hxj
  have hivqs : iv qi = iv qj :=
    mem_flatten_unique _ hnodup _ _ (List.mem_map_of_mem iv hqi)
      (List.mem_map_of_mem iv hqj) x hxqi hxqj
  constructor
  · refine ⟨iv qi, ?_, hsubi, ?_⟩
    · rw [hblocks]; exact List.mem_map_of_mem iv hqi
    · rw [hivqs]; exact hsubj
  · rw [hblocks]
    exact List.count_eq_one_of_mem hnodup
      (List.mem_flatten.mpr ⟨iv qi, List.mem_map_of_mem iv hqi, hxqi⟩)

/-- Witness for C1: scope of ten rows, before = after = 1, matches at
positions 3 and 5; their windows [2,3,4] and [4,5,6] share identifier 4
and merge into the single block [2,3,4,5,6]. -/
theorem contentWindow_overlap_one_block_witness :
    (∃ b ∈ contentBlocks 10 1 1 [3, 5], window 10 1 1 3 ⊆ b ∧ window 10 1 1 5 ⊆ b) ∧
    (contentBlocks 10 1 1 [3, 5]).flatten.count 4 = 1 :=
  contentWindow_overlap_one_block 10 1 1 [3, 5]
    (List.chain'_cons.mpr ⟨by omega, List.chain'_singleton 5⟩) (by decide) 3 5 4
    (by decide) (by decide) (by decide) (by decide)

end Bashistdb
